import Mathlib

/- Verification of the strict-encoding derive logic: layered attribute
   resolution (src/param.rs, EncodingDerive::try_from), the struct and
   enum encode derivation (src/encode.rs), the struct and enum decode
   derivation (src/decode.rs), and the run-time semantics of the code
   the deriver emits, over an abstract member-value codec. -/

namespace StrictEnc

/-- Attribute argument value, as used by the deriver: an identifier, a
non-negative integer literal, or a bare flag with no value. -/
inductive AV
  | ident (s : String)
  | int (n : Nat)
  | flag
deriving DecidableEq

/-- A scope's raw attribute set: ordered key/value requests
(ParametrizedAttr.args). -/
abbrev Attrs := List (String × AV)

/-- Per-key value requirement, mirroring ArgValueReq as instantiated in
src/param.rs: with_default(identifier) requires an identifier value,
Prohibited forbids any value (bare flag only), Optional(Int) requires an
integer literal when a value is given. -/
inductive Req
  | identDefault
  | flagOnly
  | optionalInt
deriving DecidableEq

/-- Configuration-resolution errors (the spec's section-7 family). -/
inductive ConfigError
  | unrecognizedKey (k : String)
  | wrongValueClass (k : String)
  | mutuallyExclusiveKeys
  | invalidReprKind
  | unionNotSupported
deriving DecidableEq

/-- Codec (live-data decode) errors: a member codec failure bubbled
verbatim, or the named unknown-discriminant error carrying the type
name and the raw value (Error::EnumValueNotKnown in the emitted code). -/
inductive CodecError
  | memberError
  | enumValueNotKnown (typeName : String) (raw : Nat)
deriving DecidableEq

def hasKey (attrs : Attrs) (k : String) : Bool :=
  attrs.any (fun kv => kv.1 == k)

def removeKey (k : String) (attrs : Attrs) : Attrs :=
  attrs.filter (fun kv => kv.1 != k)

/-- Modelled from the spec: section 4.1 ConfigStore merge — the merge of
amplify ParametrizedAttr (a collaborator outside src/): inner keys
shadow same-named outer keys. -/
def mergeAttrs (outer inner : Attrs) : Attrs :=
  inner ++ outer.filter (fun kv => !(hasKey inner kv.1))

def classOK : Req → AV → Bool
  | .identDefault, .ident _ => true
  | .flagOnly, .flag => true
  | .optionalInt, .int _ => true
  | _, _ => false

/-- Modelled from the spec: section 4.1 ConfigStore check — the check of
amplify AttrReq (a collaborator outside src/): rejects unrecognized keys
and wrong value classes, failing with a named error identifying the key. -/
def checkAttrs (req : List (String × Req)) : Attrs → Except ConfigError Unit
  | [] => .ok ()
  | (k, v) :: rest =>
    match List.lookup k req with
    | none => .error (.unrecognizedKey k)
    | some r =>
      if classOK r v then checkAttrs req rest else .error (.wrongValueClass k)

/-- The requirement table built in EncodingDerive::try_from
(src/param.rs lines 38-61), keyed by scope (global vs local) and data
kind (enum vs struct). -/
def reqMap (isGlobal isEnum : Bool) : List (String × Req) :=
  (if isGlobal then [("crate", Req.identDefault)] else [("skip", Req.flagOnly)]) ++
  (if isEnum then
    [("by_order", Req.flagOnly), ("by_value", Req.flagOnly)] ++
      (if isGlobal then [("repr", Req.identDefault)] else [("value", Req.optionalInt)])
  else [])

/-- The resolved per-scope policy (struct EncodingDerive in src/param.rs). -/
structure EncodingDerive where
  useCrate : String
  skip : Bool
  byOrder : Bool
  value : Option Nat
  repr : String
deriving DecidableEq

def fourReprs (s : String) : Bool :=
  s == "u8" || s == "u16" || s == "u32" || s == "u64"

/-- EncodingDerive::try_from (src/param.rs lines 33-119): check the
attribute set against the scope's requirement table, reject the
by_value/by_order conflict, validate repr (defaulting to u8), and
extract the crate path (defaulting to strict_encoding), the optional
explicit value, the skip flag and the discriminant mode. -/
def tryFrom (attrs : Attrs) (isGlobal isEnum : Bool) : Except ConfigError EncodingDerive :=
  match checkAttrs (reqMap isGlobal isEnum) attrs with
  | .error e => .error e
  | .ok _ =>
    if hasKey attrs "by_value" && hasKey attrs "by_order" then
      .error .mutuallyExclusiveKeys
    else
      let reprI : String :=
        match List.lookup "repr" attrs with
        | some (AV.ident s) => s
        | _ => "u8"
      if fourReprs reprI then
        let useCrate : String :=
          match List.lookup "crate" attrs with
          | some (AV.ident s) => s
          | _ => "strict_encoding"
        let value : Option Nat :=
          match List.lookup "value" attrs with
          | some (AV.int n) => some n
          | _ => none
        .ok ⟨useCrate, hasKey attrs "skip", !(hasKey attrs "by_value"), value, reprI⟩
      else .error .invalidReprKind

/-- Byte width of a resolved discriminant repr (1/2/4/8). -/
def reprWidth (s : String) : Nat :=
  if s == "u16" then 2 else if s == "u32" then 4 else if s == "u64" then 8 else 1

/-- A struct or variant field: optional name and local attribute set. -/
structure FieldSpec where
  name : Option String
  attrs : Attrs
deriving DecidableEq

/-- An enum variant: name, intrinsic (native) ordinal, local attribute
set and ordered field list. -/
structure VariantSpec where
  name : String
  ordinal : Int
  attrs : Attrs
  fields : List FieldSpec
deriving DecidableEq

/-- The shape of the derive input: a struct (ordered field list; a unit
struct is the empty list), an enum (ordered variant list), or a union. -/
inductive DataSpec
  | structKind (fields : List FieldSpec)
  | enumKind (variants : List VariantSpec)
  | unionKind
deriving DecidableEq

/-- The derive input: type name, type-global attribute set, and data. -/
structure DeriveInput where
  name : String
  attrs : Attrs
  data : DataSpec
deriving DecidableEq

/-- Resolution of one field against its parent scope, as done in
encode_fields_impl (src/encode.rs lines 197-205): merge parent into
local (local wins), strip the crate key, resolve at local scope. -/
def resolveField (parent : Attrs) (f : FieldSpec) (isEnum : Bool) :
    Except ConfigError EncodingDerive :=
  tryFrom (removeKey "crate" (mergeAttrs parent f.attrs)) false isEnum

/-- Resolution of one enum variant against the type-global scope, as
done identically in encode_enum_impl (src/encode.rs lines 110-119) and
decode_enum_impl (src/decode.rs lines 108-117): merge global into local,
strip repr and crate, resolve at local enum scope. -/
def resolveVariant (globalAttrs : Attrs) (v : VariantSpec) :
    Except ConfigError EncodingDerive :=
  tryFrom (removeKey "crate" (removeKey "repr" (mergeAttrs globalAttrs v.attrs))) false true

/-- Encode-side field plan derivation (encode_fields_impl, src/encode.rs
lines 190-227): per field, first validate the local attribute set alone,
then resolve the combined scope; a skip-resolved field contributes a
skip entry (no bytes), any other field a serialize entry. -/
def encodeFieldsPlan (parent : Attrs) (isEnum : Bool) :
    List FieldSpec → Except ConfigError (List Bool)
  | [] => .ok []
  | f :: fs =>
    match tryFrom f.attrs false isEnum with
    | .error e => .error e
    | .ok _ =>
      match resolveField parent f isEnum with
      | .error e => .error e
      | .ok enc =>
        match encodeFieldsPlan parent isEnum fs with
        | .error e => .error e
        | .ok rest => .ok (enc.skip :: rest)

/-- Decode-side per-field plan: whether the field is skipped (populated
with the default) and the namespace the emitted member decode call
references. -/
structure DecFieldP where
  skip : Bool
  ns : String
deriving DecidableEq

def decodeFieldsAux (parentNoCrate : Attrs) (imp : String) (isEnum : Bool) :
    List FieldSpec → Except ConfigError (List DecFieldP)
  | [] => .ok []
  | f :: fs =>
    match tryFrom f.attrs false isEnum with
    | .error e => .error e
    | .ok _ =>
      match tryFrom (mergeAttrs parentNoCrate f.attrs) false isEnum with
      | .error e => .error e
      | .ok enc =>
        match decodeFieldsAux parentNoCrate imp isEnum fs with
        | .error e => .error e
        | .ok rest => .ok (⟨enc.skip, imp⟩ :: rest)

/-- Decode-side field plan derivation (decode_fields_impl,
src/decode.rs lines 166-205): the crate key is removed from the parent
set first, the member-call namespace is taken from re-resolving that
stripped parent set, and each field is then resolved against the
stripped parent. -/
def decodeFieldsPlan (parent : Attrs) (isEnum : Bool) (fields : List FieldSpec) :
    Except ConfigError (String × List DecFieldP) :=
  match tryFrom (removeKey "crate" parent) false isEnum with
  | .error e => .error e
  | .ok pa =>
    match decodeFieldsAux (removeKey "crate" parent) pa.useCrate isEnum fields with
    | .error e => .error e
    | .ok fps => .ok (pa.useCrate, fps)

/-- Derived encode plan for a struct: the namespace of the emitted impl
(trait path and member method resolution) and the per-field skip list. -/
structure EncodeStructPlan where
  ns : String
  skips : List Bool
deriving DecidableEq

/-- encode_struct_impl (src/encode.rs lines 60-94). -/
def encodeStructImpl (fields : List FieldSpec) (globalAttrs : Attrs) :
    Except ConfigError EncodeStructPlan :=
  match tryFrom globalAttrs true false with
  | .error e => .error e
  | .ok enc =>
    match encodeFieldsPlan globalAttrs false fields with
    | .error e => .error e
    | .ok sk => .ok ⟨enc.useCrate, sk⟩

/-- Derived decode plan for a struct. -/
structure DecodeStructPlan where
  ns : String
  fields : List DecFieldP
deriving DecidableEq

/-- decode_struct_impl (src/decode.rs lines 60-92). -/
def decodeStructImpl (fields : List FieldSpec) (globalAttrs : Attrs) :
    Except ConfigError DecodeStructPlan :=
  match tryFrom globalAttrs true false with
  | .error e => .error e
  | .ok enc =>
    match decodeFieldsPlan globalAttrs false fields with
    | .error e => .error e
    | .ok fps => .ok ⟨enc.useCrate, fps.2⟩

/-- The discriminant expression the encode arm writes, before the
`as repr` cast (src/encode.rs lines 157-161): an explicit value wins,
else the declaration index under by-order, else the variant's intrinsic
ordinal. -/
def encDiscTok (enc : EncodingDerive) (order : Nat) (v : VariantSpec) : Int :=
  match enc.value with
  | some val => (val : Int)
  | none => if enc.byOrder then (order : Int) else v.ordinal

/-- The guard value the decode arm compares the read discriminant with
(src/decode.rs lines 134-138): the explicit value and the declaration
index appear uncast; only the intrinsic ordinal is cast to the repr. -/
def decGuardTok (enc : EncodingDerive) (order : Nat) (v : VariantSpec) (M : Int) : Int :=
  match enc.value with
  | some val => (val : Int)
  | none => if enc.byOrder then (order : Int) else v.ordinal % M

/-- The discriminant assignment exactly as the specification words it
(for comparison with the derived plans): the explicit `value` key's
integer if present; otherwise the zero-based declaration index under
by-order; otherwise the intrinsic ordinal cast to discriminantRepr. -/
def claimedDisc (enc : EncodingDerive) (j : Nat) (v : VariantSpec) (M : Int) : Int :=
  match enc.value with
  | some val => (val : Int)
  | none => if enc.byOrder then (j : Int) else v.ordinal % M

/-- One encode dispatch arm: variant declaration index, discriminant
expression (cast applied when written), per-field skip list. -/
structure EncArm where
  idx : Nat
  discTok : Int
  skips : List Bool
deriving DecidableEq

/-- The encode arm list of encode_enum_impl (src/encode.rs lines
109-170): per variant, validate the local set alone, resolve the
combined scope, drop skip-resolved variants entirely, derive the field
plan against the variant's local attributes. -/
def encEnumArms (globalAttrs : Attrs) : Nat → List VariantSpec → Except ConfigError (List EncArm)
  | _, [] => .ok []
  | order, v :: vs =>
    match tryFrom v.attrs false true with
    | .error e => .error e
    | .ok _ =>
      match resolveVariant globalAttrs v with
      | .error e => .error e
      | .ok enc =>
        if enc.skip then encEnumArms globalAttrs (order + 1) vs
        else
          match encodeFieldsPlan v.attrs true v.fields with
          | .error e => .error e
          | .ok sk =>
            match encEnumArms globalAttrs (order + 1) vs with
            | .error e => .error e
            | .ok rest => .ok (⟨order, encDiscTok enc order v, sk⟩ :: rest)

/-- Derived encode plan for an enum: impl namespace, discriminant byte
width, dispatch arms in declaration order. -/
structure EncodeEnumPlan where
  ns : String
  w : Nat
  arms : List EncArm
deriving DecidableEq

/-- encode_enum_impl (src/encode.rs lines 96-188). -/
def encodeEnumImpl (variants : List VariantSpec) (globalAttrs : Attrs) :
    Except ConfigError EncodeEnumPlan :=
  match tryFrom globalAttrs true true with
  | .error e => .error e
  | .ok encG =>
    match encEnumArms globalAttrs 0 variants with
    | .error e => .error e
    | .ok arms => .ok ⟨encG.useCrate, reprWidth encG.repr, arms⟩

/-- One decode dispatch arm: variant declaration index, guard value and
field plans. -/
structure DecArm where
  idx : Nat
  guard : Int
  fields : List DecFieldP
deriving DecidableEq

def decEnumArms (globalAttrs : Attrs) (M : Int) :
    Nat → List VariantSpec → Except ConfigError (List DecArm)
  | _, [] => .ok []
  | order, v :: vs =>
    match tryFrom v.attrs false true with
    | .error e => .error e
    | .ok _ =>
      match resolveVariant globalAttrs v with
      | .error e => .error e
      | .ok enc =>
        if enc.skip then decEnumArms globalAttrs M (order + 1) vs
        else
          match decodeFieldsPlan v.attrs true v.fields with
          | .error e => .error e
          | .ok fps =>
            match decEnumArms globalAttrs M (order + 1) vs with
            | .error e => .error e
            | .ok rest => .ok (⟨order, decGuardTok enc order v M, fps.2⟩ :: rest)

/-- Derived decode plan for an enum: impl namespace, discriminant byte
width, type name carried into the unknown-variant error, dispatch arms. -/
structure DecodeEnumPlan where
  ns : String
  w : Nat
  typeName : String
  arms : List DecArm
deriving DecidableEq

/-- decode_enum_impl (src/decode.rs lines 94-164). -/
def decodeEnumImpl (typeName : String) (variants : List VariantSpec) (globalAttrs : Attrs) :
    Except ConfigError DecodeEnumPlan :=
  match tryFrom globalAttrs true true with
  | .error e => .error e
  | .ok encG =>
    match decEnumArms globalAttrs ((256 : Int) ^ reprWidth encG.repr) 0 variants with
    | .error e => .error e
    | .ok arms => .ok ⟨encG.useCrate, reprWidth encG.repr, typeName, arms⟩

inductive EncodePlan
  | structP (p : EncodeStructPlan)
  | enumP (p : EncodeEnumPlan)
deriving DecidableEq

inductive DecodePlan
  | structP (p : DecodeStructPlan)
  | enumP (p : DecodeEnumPlan)
deriving DecidableEq

/-- encode_derive (src/encode.rs lines 28-58): dispatch on the data
kind; unions are rejected. -/
def encodeDerive (input : DeriveInput) : Except ConfigError EncodePlan :=
  match input.data with
  | .structKind fs => (encodeStructImpl fs input.attrs).map .structP
  | .enumKind vs => (encodeEnumImpl vs input.attrs).map .enumP
  | .unionKind => .error .unionNotSupported

/-- decode_derive (src/decode.rs lines 28-58): dispatch on the data
kind; unions are rejected. -/
def decodeDerive (input : DeriveInput) : Except ConfigError DecodePlan :=
  match input.data with
  | .structKind fs => (decodeStructImpl fs input.attrs).map .structP
  | .enumKind vs => (decodeEnumImpl input.name vs input.attrs).map .enumP
  | .unionKind => .error .unionNotSupported

/-- The collaborator contract (spec section 6): every member value type
supplies its own conforming encode and decode; decode consumes exactly
the bytes its encode wrote and a skipped member is repopulated from the
type's default value. Member values are abstracted as naturals, bytes
as naturals below 256. -/
structure LeafCodec where
  enc : Nat → List Nat
  dec : List Nat → Option (Nat × List Nat)
  dflt : Nat
  dec_enc : ∀ v rest, dec (enc v ++ rest) = some (v, rest)

/-- Little-endian fixed-width integer bytes, as written by the repr
type's own strict_encode for the `(value as repr)` discriminant. -/
def toLEBytes : Nat → Nat → List Nat
  | 0, _ => []
  | w + 1, n => n % 256 :: toLEBytes w (n / 256)

def fromLE : List Nat → Nat
  | [] => 0
  | b :: bs => b + 256 * fromLE bs

/-- Fixed-width little-endian integer read, as performed by
`repr::strict_decode` for the leading discriminant. -/
def readLE (w : Nat) (input : List Nat) : Option (Nat × List Nat) :=
  if w ≤ input.length then some (fromLE (input.take w), input.drop w) else none

/-- Run-time meaning of the emitted field-encode statements: fields in
declaration order, a skip-resolved field contributing no bytes, every
other field serialized by the member codec. -/
def encodeFieldsRun (C : LeafCodec) : List Bool → List Nat → List Nat
  | [], _ => []
  | _, [] => []
  | s :: ss, x :: xs => (if s then [] else C.enc x) ++ encodeFieldsRun C ss xs

/-- Run-time meaning of the emitted field-decode expressions: fields in
declaration order, a skip-resolved field populated with the member
default consuming no input, every other field decoded from the stream;
a member decode failure aborts the whole decode. -/
def decodeFieldsRun (C : LeafCodec) : List DecFieldP → List Nat → Option (List Nat × List Nat)
  | [], input => some ([], input)
  | f :: fs, input =>
    if f.skip then
      match decodeFieldsRun C fs input with
      | none => none
      | some (xs, r) => some (C.dflt :: xs, r)
    else
      match C.dec input with
      | none => none
      | some (x, rest) =>
        match decodeFieldsRun C fs rest with
        | none => none
        | some (xs, r) => some (x :: xs, r)

def encodeStructRun (C : LeafCodec) (p : EncodeStructPlan) (vals : List Nat) : List Nat :=
  encodeFieldsRun C p.skips vals

def decodeStructRun (C : LeafCodec) (p : DecodeStructPlan) (input : List Nat) :
    Option (List Nat × List Nat) :=
  decodeFieldsRun C p.fields input

/-- A live enum value: the declaration index of its variant and the
member values of that variant's fields. -/
structure EnumVal where
  idx : Nat
  fields : List Nat
deriving DecidableEq

/-- Run-time meaning of the emitted enum strict_encode: the match arm
of the value's variant (none exists for a skip-dropped variant) writes
the discriminant cast to the repr as fixed-width little-endian bytes,
then the captured fields. -/
def encodeEnumRun (C : LeafCodec) (p : EncodeEnumPlan) (v : EnumVal) : Option (List Nat) :=
  match p.arms.find? (fun a => a.idx == v.idx) with
  | none => none
  | some a =>
    some (toLEBytes p.w ((a.discTok % ((256 : Int) ^ p.w)).toNat) ++
      encodeFieldsRun C a.skips v.fields)

/-- Run-time meaning of the emitted guarded match arms: arms are tried
in declaration order against the read discriminant; the fallthrough arm
raises the named unknown-variant error. -/
def decodeArms (C : LeafCodec) (typeName : String) (x : Nat) (input : List Nat) :
    List DecArm → Except CodecError (EnumVal × List Nat)
  | [] => .error (.enumValueNotKnown typeName x)
  | a :: rest =>
    if (x : Int) = a.guard then
      match decodeFieldsRun C a.fields input with
      | none => .error .memberError
      | some (xs, r) => .ok (⟨a.idx, xs⟩, r)
    else decodeArms C typeName x input rest

/-- Run-time meaning of the emitted enum strict_decode: read one
repr-width integer (a short read is a bubbled member error), then
dispatch on the guarded arms. -/
def decodeEnumRun (C : LeafCodec) (p : DecodeEnumPlan) (input : List Nat) :
    Except CodecError (EnumVal × List Nat) :=
  match readLE p.w input with
  | none => .error .memberError
  | some (x, rest) => decodeArms C p.typeName x rest p.arms

/-- A constructible value of a derived type. -/
inductive Value
  | structV (fields : List Nat)
  | enumV (ev : EnumVal)
deriving DecidableEq

def encodeRun (C : LeafCodec) : EncodePlan → Value → Option (List Nat)
  | .structP p, .structV fs => some (encodeStructRun C p fs)
  | .enumP p, .enumV ev => encodeEnumRun C p ev
  | _, _ => none

def decodeRun (C : LeafCodec) : DecodePlan → List Nat → Except CodecError (Value × List Nat)
  | .structP p, input =>
    match decodeStructRun C p input with
    | none => .error .memberError
    | some (fs, r) => .ok (.structV fs, r)
  | .enumP p, input =>
    match decodeEnumRun C p input with
    | .error e => .error e
    | .ok (ev, r) => .ok (.enumV ev, r)

/-- Do the skip-resolved positions of a value hold the member default?
(The condition under which a skipped field survives a round trip.) -/
def skipDfltB (C : LeafCodec) : List Bool → List Nat → Bool
  | [], [] => true
  | s :: ss, x :: xs => (if s then x == C.dflt else true) && skipDfltB C ss xs
  | _, _ => false

/-- Well-formedness of a value for an encode plan: matching shape, an
arm for its variant, and defaults in skip-resolved positions. -/
def valueWF (C : LeafCodec) : EncodePlan → Value → Bool
  | .structP p, .structV fs => skipDfltB C p.skips fs
  | .enumP p, .enumV ev =>
    match p.arms.find? (fun a => a.idx == ev.idx) with
    | none => false
    | some a => skipDfltB C a.skips ev.fields
  | _, _ => false

/-- The discriminant written for the value's variant is matched by that
variant's decode guard and by no other: the collision-free, in-range
discriminant condition. -/
def discOK : EncodePlan → DecodePlan → Value → Bool
  | .structP _, .structP _, .structV _ => true
  | .enumP p, .enumP q, .enumV ev =>
    (match p.arms.find? (fun a => a.idx == ev.idx) with
    | none => false
    | some a =>
      q.arms.all (fun b =>
        (b.guard == ((a.discTok % ((256 : Int) ^ p.w)).toNat : Int)) == (b.idx == ev.idx)))
  | _, _, _ => false

/-- A concrete conforming member codec for witnesses: self-delimiting
unary encoding with default 0. -/
def unaryEnc : Nat → List Nat
  | 0 => [0]
  | n + 1 => 1 :: unaryEnc n

def unaryDec : List Nat → Option (Nat × List Nat)
  | [] => none
  | 0 :: rest => some (0, rest)
  | (_ + 1) :: rest =>
    match unaryDec rest with
    | none => none
    | some (n, r) => some (n + 1, r)

def unaryCodec : LeafCodec where
  enc := unaryEnc
  dec := unaryDec
  dflt := 0
  dec_enc := by
    intro v rest
    induction v with
    | zero => simp [unaryEnc, unaryDec]
    | succ n ih => simp [unaryEnc, unaryDec, ih]

/-- Concrete input: a struct whose single field is skip-marked. -/
def c1cexInput : DeriveInput := ⟨"S", [], .structKind [⟨none, [("skip", AV.flag)]⟩]⟩

/-- Concrete input: an enum with a one-field variant and an
explicit-value variant. -/
def c1wInput : DeriveInput :=
  ⟨"W", [], .enumKind
    [⟨"A", 0, [], [⟨none, []⟩]⟩, ⟨"B", 1, [("value", AV.int 7)], []⟩]⟩

/-- Concrete input: a single variant carrying `value = 256` under the
default one-byte repr. -/
def c2cexVariants : List VariantSpec := [⟨"A", 0, [("value", AV.int 256)], []⟩]

/-- Concrete input: a single variant carrying `value = 5`. -/
def c2wVariants : List VariantSpec := [⟨"A", 0, [("value", AV.int 5)], []⟩]

/-- Concrete input: a one-variant enum with default settings. -/
def c3wInput : DeriveInput := ⟨"T", [], .enumKind [⟨"A", 0, [], []⟩]⟩

/-- Concrete input: variant list whose first variant is skip-marked. -/
def c4wVariants : List VariantSpec :=
  [⟨"A", 0, [("skip", AV.flag)], []⟩, ⟨"B", 1, [], []⟩]

/-- Concrete input: a skip-marked field followed by a plain field. -/
def c5wFields : List FieldSpec := [⟨none, [("skip", AV.flag)]⟩, ⟨none, []⟩]

/-- Concrete input: the enum-global attribute set with both mode flags. -/
def c6attrs : Attrs := [("by_value", AV.flag), ("by_order", AV.flag)]

/-- Concrete input: a struct selecting a non-default codec namespace. -/
def c8input : DeriveInput :=
  ⟨"S", [("crate", AV.ident "mycrate")], .structKind [⟨none, []⟩]⟩

/-- Concrete input: a struct with zero fields. -/
def c9wInput : DeriveInput := ⟨"Z", [], .structKind []⟩

theorem toLEBytes_length (w n : Nat) : (toLEBytes w n).length = w := by
  induction w generalizing n with
  | zero => rfl
  | succ k ih => simp [toLEBytes, ih]

theorem fromLE_toLEBytes (w n : Nat) : fromLE (toLEBytes w n) = n % 256 ^ w := by
  induction w generalizing n with
  | zero => simp [toLEBytes, fromLE, Nat.mod_one]
  | succ k ih =>
    have hKpos : 0 < 256 ^ k := Nat.pos_pow_of_pos k (by norm_num)
    have hq : n / 256 % 256 ^ k < 256 ^ k := Nat.mod_lt _ hKpos
    have hr : n % 256 < 256 := Nat.mod_lt _ (by norm_num)
    have hmul : 256 * (n / 256) % (256 * 256 ^ k) = 256 * (n / 256 % 256 ^ k) :=
      Nat.mul_mod_mul_left 256 (n / 256) (256 ^ k)
    have hsplit : n = 256 * (n / 256) + n % 256 := (Nat.div_add_mod n 256).symm
    have key : n % (256 * 256 ^ k) = n % 256 + 256 * (n / 256 % 256 ^ k) := by
      conv_lhs => rw [hsplit]
      have h2 : n % 256 % (256 * 256 ^ k) = n % 256 :=
        Nat.mod_eq_of_lt (by nlinarith)
      rw [Nat.add_mod, hmul, h2]
      have hlt : 256 * (n / 256 % 256 ^ k) + n % 256 < 256 * 256 ^ k := by nlinarith
      rw [Nat.mod_eq_of_lt hlt]
      omega
    simp only [toLEBytes, fromLE, ih]
    rw [pow_succ']
    omega

theorem readLE_toLEBytes (w n : Nat) (rest : List Nat) :
    readLE w (toLEBytes w n ++ rest) = some (n % 256 ^ w, rest) := by
  have hl := toLEBytes_length w n
  unfold readLE
  rw [if_pos (by simp [hl])]
  rw [List.take_left' hl, List.drop_left' hl, fromLE_toLEBytes]

theorem checkAttrs_keys {req : List (String × Req)} {attrs : Attrs}
    (h : checkAttrs req attrs = .ok ()) :
    ∀ kv ∈ attrs, (List.lookup kv.1 req).isSome := by
  induction attrs with
  | nil => simp
  | cons hd tl ih =>
    obtain ⟨k, v⟩ := hd
    intro kv hkv
    cases hlk : List.lookup k req with
    | none => simp [checkAttrs, hlk] at h
    | some r =>
      cases hcv : classOK r v with
      | false => simp [checkAttrs, hlk, hcv] at h
      | true =>
        simp only [checkAttrs, hlk, hcv, if_true] at h
        rcases List.mem_cons.mp hkv with hkv | hkv
        · subst hkv; simp [hlk]
        · exact ih h kv hkv

theorem tryFrom_check {attrs : Attrs} {ig ie : Bool} {e : EncodingDerive}
    (h : tryFrom attrs ig ie = .ok e) :
    checkAttrs (reqMap ig ie) attrs = .ok () := by
  unfold tryFrom at h
  cases hc : checkAttrs (reqMap ig ie) attrs with
  | error er => rw [hc] at h; cases h
  | ok u => cases u; rfl

theorem no_crate_of_localCheck {attrs : Attrs} {ie : Bool} {e : EncodingDerive}
    (h : tryFrom attrs false ie = .ok e) : hasKey attrs "crate" = false := by
  have hc := tryFrom_check h
  by_contra hk
  rw [Bool.not_eq_false] at hk
  obtain ⟨kv, hmem, hkv⟩ := List.any_eq_true.mp hk
  have := checkAttrs_keys hc kv hmem
  have hk1 : kv.1 = "crate" := by simpa using hkv
  rw [hk1] at this
  cases ie <;> simp [reqMap, List.lookup] at this

theorem removeKey_mergeAttrs {p f : Attrs} (hf : hasKey f "crate" = false) :
    removeKey "crate" (mergeAttrs p f) = mergeAttrs (removeKey "crate" p) f := by
  have hall : ∀ kv ∈ f, (kv.1 != "crate") = true := by
    intro kv hkv
    have hb : (kv.1 == "crate") = false := by
      by_contra hne
      rw [Bool.not_eq_false] at hne
      have : hasKey f "crate" = true := List.any_eq_true.mpr ⟨kv, hkv, hne⟩
      rw [hf] at this; cases this
    simp [bne, hb]
  unfold removeKey mergeAttrs
  rw [List.filter_append]
  congr 1
  · exact List.filter_eq_self.mpr hall
  · rw [List.filter_filter, List.filter_filter]
    exact List.filter_congr (fun kv _ => by rw [Bool.and_comm])

theorem resolveField_eq_decodeSide {parent : Attrs} {f : FieldSpec} {ie : Bool}
    {e : EncodingDerive} (hl : tryFrom f.attrs false ie = .ok e) :
    resolveField parent f ie =
      tryFrom (mergeAttrs (removeKey "crate" parent) f.attrs) false ie := by
  unfold resolveField
  rw [removeKey_mergeAttrs (no_crate_of_localCheck hl)]

theorem decodeFieldsAux_skips {parent : Attrs} {imp : String} {ie : Bool}
    {fields : List FieldSpec} {sk : List Bool} {dfs : List DecFieldP}
    (he : encodeFieldsPlan parent ie fields = .ok sk)
    (hd : decodeFieldsAux (removeKey "crate" parent) imp ie fields = .ok dfs) :
    dfs.map DecFieldP.skip = sk := by
  induction fields generalizing sk dfs with
  | nil =>
    simp only [encodeFieldsPlan] at he
    simp only [decodeFieldsAux] at hd
    cases he; cases hd; rfl
  | cons f fs ih =>
    simp only [encodeFieldsPlan] at he
    simp only [decodeFieldsAux] at hd
    cases hl : tryFrom f.attrs false ie with
    | error er => rw [hl] at he; cases he
    | ok u =>
      rw [hl] at he hd
      rw [← resolveField_eq_decodeSide hl] at hd
      cases hr : resolveField parent f ie with
      | error er => rw [hr] at he; cases he
      | ok enc =>
        rw [hr] at he hd
        cases hre : encodeFieldsPlan parent ie fs with
        | error er => rw [hre] at he; cases he
        | ok rest =>
          rw [hre] at he
          cases hrd : decodeFieldsAux (removeKey "crate" parent) imp ie fs with
          | error er => rw [hrd] at hd; cases hd
          | ok rest' =>
            rw [hrd] at hd
            cases he; cases hd
            simp [ih hre hrd]

theorem decodeFieldsPlan_skips {parent : Attrs} {ie : Bool} {fields : List FieldSpec}
    {sk : List Bool} {imp : String} {dfs : List DecFieldP}
    (he : encodeFieldsPlan parent ie fields = .ok sk)
    (hd : decodeFieldsPlan parent ie fields = .ok (imp, dfs)) :
    dfs.map DecFieldP.skip = sk := by
  unfold decodeFieldsPlan at hd
  cases hp : tryFrom (removeKey "crate" parent) false ie with
  | error er => simp [hp] at hd
  | ok pa =>
    simp only [hp] at hd
    cases ha : decodeFieldsAux (removeKey "crate" parent) pa.useCrate ie fields with
    | error er => simp [ha] at hd
    | ok fps =>
      simp only [ha, Except.ok.injEq, Prod.mk.injEq] at hd
      obtain ⟨h1, h2⟩ := hd
      subst h2
      exact decodeFieldsAux_skips he ha

theorem encodeFieldsPlan_get {parent : Attrs} {ie : Bool} {fields : List FieldSpec}
    {sk : List Bool} (h : encodeFieldsPlan parent ie fields = .ok sk) :
    sk.length = fields.length ∧
      ∀ j f, fields.get? j = some f →
        ∃ e, resolveField parent f ie = .ok e ∧ sk.get? j = some e.skip := by
  induction fields generalizing sk with
  | nil =>
    simp only [encodeFieldsPlan] at h
    cases h; simp
  | cons f fs ih =>
    simp only [encodeFieldsPlan] at h
    cases hl : tryFrom f.attrs false ie with
    | error er => rw [hl] at h; cases h
    | ok u =>
      rw [hl] at h
      cases hr : resolveField parent f ie with
      | error er => rw [hr] at h; cases h
      | ok enc =>
        rw [hr] at h
        cases hre : encodeFieldsPlan parent ie fs with
        | error er => rw [hre] at h; cases h
        | ok rest =>
          rw [hre] at h
          cases h
          obtain ⟨hlen, hget⟩ := ih hre
          refine ⟨by simp [hlen], ?_⟩
          intro j g hg
          cases j with
          | zero =>
            simp only [List.get?] at hg
            cases hg
            exact ⟨enc, hr, rfl⟩
          | succ k => exact hget k g hg

theorem encodeFieldsRun_nilVals {C : LeafCodec} (sk : List Bool) :
    encodeFieldsRun C sk [] = [] := by
  cases sk <;> rfl

theorem decodeFieldsRun_encodeFieldsRun {C : LeafCodec} {sk : List Bool}
    {dfs : List DecFieldP} {vals : List Nat}
    (hmap : dfs.map DecFieldP.skip = sk) (hwf : skipDfltB C sk vals = true)
    (rest : List Nat) :
    decodeFieldsRun C dfs (encodeFieldsRun C sk vals ++ rest) = some (vals, rest) := by
  induction dfs generalizing sk vals with
  | nil =>
    subst hmap
    cases vals with
    | nil => rfl
    | cons x xs => simp [skipDfltB] at hwf
  | cons f fs ih =>
    subst hmap
    cases vals with
    | nil => simp [skipDfltB] at hwf
    | cons x xs =>
      simp only [List.map, skipDfltB, Bool.and_eq_true] at hwf
      obtain ⟨hhd, htl⟩ := hwf
      cases hs : f.skip with
      | true =>
        rw [hs] at hhd
        have hx : x = C.dflt := by simpa using hhd
        simp [encodeFieldsRun, decodeFieldsRun, hs, ih rfl htl, hx]
      | false =>
        simp [encodeFieldsRun, decodeFieldsRun, hs, List.append_assoc,
          C.dec_enc, ih rfl htl]

theorem encodeFieldsRun_eraseIdx {C : LeafCodec} (sk : List Bool) (vals : List Nat)
    (j : Nat) (hj : sk.get? j = some true) :
    encodeFieldsRun C sk vals = encodeFieldsRun C (sk.eraseIdx j) (vals.eraseIdx j) := by
  induction sk generalizing j vals with
  | nil => simp at hj
  | cons s ss ih =>
    cases j with
    | zero =>
      simp only [List.get?] at hj
      cases hj
      cases vals with
      | nil => rw [encodeFieldsRun_nilVals, List.eraseIdx, encodeFieldsRun_nilVals]
      | cons x xs => simp [encodeFieldsRun, List.eraseIdx]
    | succ k =>
      simp only [List.get?] at hj
      cases vals with
      | nil =>
        rw [encodeFieldsRun_nilVals, List.eraseIdx, encodeFieldsRun_nilVals]
      | cons x xs =>
        simp only [List.eraseIdx, encodeFieldsRun]
        rw [ih xs k hj]

theorem decodeFieldsRun_skip_eraseIdx {C : LeafCodec} (dfs : List DecFieldP)
    (j : Nat) (f : DecFieldP) (hj : dfs.get? j = some f) (hs : f.skip = true)
    (input : List Nat) :
    decodeFieldsRun C dfs input =
      (decodeFieldsRun C (dfs.eraseIdx j) input).map
        (fun p => (p.1.insertIdx j C.dflt, p.2)) := by
  induction dfs generalizing j input with
  | nil => simp at hj
  | cons g gs ih =>
    cases j with
    | zero =>
      simp only [List.get?] at hj
      cases hj
      simp only [decodeFieldsRun, hs, if_true, List.eraseIdx]
      cases hrec : decodeFieldsRun C gs input with
      | none => rfl
      | some p => cases p; simp [List.insertIdx]
    | succ k =>
      simp only [List.get?] at hj
      have herase : (g :: gs).eraseIdx (k + 1) = g :: gs.eraseIdx k := rfl
      cases hgs : g.skip with
      | true =>
        rw [herase]
        cases hrec : decodeFieldsRun C (gs.eraseIdx k) input with
        | none => simp [decodeFieldsRun, hgs, ih k hj input, hrec]
        | some p =>
          obtain ⟨xs, r⟩ := p
          simp [decodeFieldsRun, hgs, ih k hj input, hrec, List.insertIdx_succ_cons]
      | false =>
        rw [herase]
        cases hdec : C.dec input with
        | none => simp [decodeFieldsRun, hgs, hdec]
        | some q =>
          obtain ⟨x, rest⟩ := q
          cases hrec : decodeFieldsRun C (gs.eraseIdx k) rest with
          | none => simp [decodeFieldsRun, hgs, hdec, ih k hj rest, hrec]
          | some p =>
            obtain ⟨xs, r⟩ := p
            simp [decodeFieldsRun, hgs, hdec, ih k hj rest, hrec,
              List.insertIdx_succ_cons]

theorem encDecArms_pair {g : Attrs} {M : Int} {base : Nat} {vs : List VariantSpec}
    {ea : List EncArm} {da : List DecArm}
    (he : encEnumArms g base vs = .ok ea) (hd : decEnumArms g M base vs = .ok da) :
    ea.length = da.length ∧
      ∀ i a b, ea.get? i = some a → da.get? i = some b →
        a.idx = b.idx ∧ a.skips = b.fields.map DecFieldP.skip := by
  induction vs generalizing base ea da with
  | nil =>
    simp only [encEnumArms] at he
    simp only [decEnumArms] at hd
    cases he; cases hd
    exact ⟨rfl, by intro i a b ha; simp at ha⟩
  | cons v vs ih =>
    simp only [encEnumArms] at he
    simp only [decEnumArms] at hd
    cases hl : tryFrom v.attrs false true with
    | error er => rw [hl] at he; cases he
    | ok u =>
      simp only [hl] at he hd
      cases hr : resolveVariant g v with
      | error er => rw [hr] at he; cases he
      | ok enc =>
        simp only [hr] at he hd
        cases hsk : enc.skip with
        | true =>
          rw [if_pos hsk] at he hd
          exact ih he hd
        | false =>
          rw [if_neg (by simp [hsk])] at he hd
          cases hfe : encodeFieldsPlan v.attrs true v.fields with
          | error er => rw [hfe] at he; cases he
          | ok sk =>
            rw [hfe] at he
            cases hre : encEnumArms g (base + 1) vs with
            | error er => rw [hre] at he; cases he
            | ok restE =>
              rw [hre] at he
              cases he
              cases hfd : decodeFieldsPlan v.attrs true v.fields with
              | error er => rw [hfd] at hd; cases hd
              | ok fps =>
                rw [hfd] at hd
                cases hrd : decEnumArms g M (base + 1) vs with
                | error er => rw [hrd] at hd; cases hd
                | ok restD =>
                  rw [hrd] at hd
                  cases hd
                  obtain ⟨hlen, hget⟩ := ih hre hrd
                  refine ⟨by simp [hlen], ?_⟩
                  intro i a b ha hb
                  cases i with
                  | zero =>
                    simp only [List.get?] at ha hb
                    cases ha; cases hb
                    obtain ⟨imp, fl⟩ := fps
                    exact ⟨rfl, (decodeFieldsPlan_skips hfe hfd).symm⟩
                  | succ k => exact hget k a b ha hb

theorem encEnumArms_mem {g : Attrs} {base : Nat} {vs : List VariantSpec}
    {ea : List EncArm} (he : encEnumArms g base vs = .ok ea) :
    ∀ a ∈ ea, ∃ j v enc, vs.get? j = some v ∧ a.idx = base + j ∧
      resolveVariant g v = .ok enc ∧ enc.skip = false ∧
      a.discTok = encDiscTok enc (base + j) v := by
  induction vs generalizing base ea with
  | nil =>
    simp only [encEnumArms] at he
    cases he
    simp
  | cons v vs ih =>
    intro a ha
    simp only [encEnumArms] at he
    cases hl : tryFrom v.attrs false true with
    | error er => rw [hl] at he; cases he
    | ok u =>
      simp only [hl] at he
      cases hr : resolveVariant g v with
      | error er => rw [hr] at he; cases he
      | ok enc =>
        simp only [hr] at he
        cases hsk : enc.skip with
        | true =>
          rw [if_pos hsk] at he
          obtain ⟨j, v', enc', hv', hidx, hres, hskf, hdisc⟩ := ih he a ha
          refine ⟨j + 1, v', enc', hv', by omega, hres, hskf, ?_⟩
          rw [hdisc]
          congr 1
          omega
        | false =>
          rw [if_neg (by simp [hsk])] at he
          cases hfe : encodeFieldsPlan v.attrs true v.fields with
          | error er => rw [hfe] at he; cases he
          | ok sk =>
            rw [hfe] at he
            cases hre : encEnumArms g (base + 1) vs with
            | error er => rw [hre] at he; cases he
            | ok restE =>
              rw [hre] at he
              cases he
              rcases List.mem_cons.mp ha with ha | ha
              · subst ha
                refine ⟨0, v, enc, rfl, by simp, hr, hsk, ?_⟩
                simp
              · obtain ⟨j, v', enc', hv', hidx, hres, hskf, hdisc⟩ := ih hre a ha
                refine ⟨j + 1, v', enc', hv', by omega, hres, hskf, ?_⟩
                rw [hdisc]
                congr 1
                omega

theorem decEnumArms_mem {g : Attrs} {M : Int} {base : Nat} {vs : List VariantSpec}
    {da : List DecArm} (hd : decEnumArms g M base vs = .ok da) :
    ∀ b ∈ da, ∃ j v enc, vs.get? j = some v ∧ b.idx = base + j ∧
      resolveVariant g v = .ok enc ∧ enc.skip = false ∧
      b.guard = decGuardTok enc (base + j) v M := by
  induction vs generalizing base da with
  | nil =>
    simp only [decEnumArms] at hd
    cases hd
    simp
  | cons v vs ih =>
    intro b hb
    simp only [decEnumArms] at hd
    cases hl : tryFrom v.attrs false true with
    | error er => rw [hl] at hd; cases hd
    | ok u =>
      simp only [hl] at hd
      cases hr : resolveVariant g v with
      | error er => rw [hr] at hd; cases hd
      | ok enc =>
        simp only [hr] at hd
        cases hsk : enc.skip with
        | true =>
          rw [if_pos hsk] at hd
          obtain ⟨j, v', enc', hv', hidx, hres, hskf, hg⟩ := ih hd b hb
          refine ⟨j + 1, v', enc', hv', by omega, hres, hskf, ?_⟩
          rw [hg]
          congr 1
          omega
        | false =>
          rw [if_neg (by simp [hsk])] at hd
          cases hfd : decodeFieldsPlan v.attrs true v.fields with
          | error er => rw [hfd] at hd; cases hd
          | ok fps =>
            rw [hfd] at hd
            cases hrd : decEnumArms g M (base + 1) vs with
            | error er => rw [hrd] at hd; cases hd
            | ok restD =>
              rw [hrd] at hd
              cases hd
              rcases List.mem_cons.mp hb with hb | hb
              · subst hb
                refine ⟨0, v, enc, rfl, by simp, hr, hsk, ?_⟩
                simp
              · obtain ⟨j, v', enc', hv', hidx, hres, hskf, hg⟩ := ih hrd b hb
                refine ⟨j + 1, v', enc', hv', by omega, hres, hskf, ?_⟩
                rw [hg]
                congr 1
                omega

theorem encEnumArms_exists {g : Attrs} {base : Nat} {vs : List VariantSpec}
    {ea : List EncArm} {j : Nat} {v : VariantSpec} {enc : EncodingDerive}
    (he : encEnumArms g base vs = .ok ea) (hv : vs.get? j = some v)
    (hr : resolveVariant g v = .ok enc) (hs : enc.skip = false) :
    ∃ a ∈ ea, a.idx = base + j ∧ a.discTok = encDiscTok enc (base + j) v := by
  induction vs generalizing base ea j with
  | nil => simp at hv
  | cons v0 vs ih =>
    simp only [encEnumArms] at he
    cases hl : tryFrom v0.attrs false true with
    | error er => rw [hl] at he; cases he
    | ok u =>
      simp only [hl] at he
      cases hr0 : resolveVariant g v0 with
      | error er => rw [hr0] at he; cases he
      | ok enc0 =>
        simp only [hr0] at he
        cases j with
        | zero =>
          simp only [List.get?] at hv
          cases hv
          rw [hr0] at hr
          cases hr
          rw [if_neg (by simp [hs])] at he
          cases hfe : encodeFieldsPlan v.attrs true v.fields with
          | error er => rw [hfe] at he; cases he
          | ok sk =>
            rw [hfe] at he
            cases hre : encEnumArms g (base + 1) vs with
            | error er => rw [hre] at he; cases he
            | ok restE =>
              rw [hre] at he
              cases he
              exact ⟨_, List.mem_cons_self _ _, by simp, by simp⟩
        | succ k =>
          simp only [List.get?] at hv
          cases hsk0 : enc0.skip with
          | true =>
            rw [if_pos hsk0] at he
            obtain ⟨a, hmem, hidx, hdisc⟩ := ih he hv
            refine ⟨a, hmem, by omega, ?_⟩
            rw [hdisc]
            congr 1
            omega
          | false =>
            rw [if_neg (by simp [hsk0])] at he
            cases hfe : encodeFieldsPlan v0.attrs true v0.fields with
            | error er => rw [hfe] at he; cases he
            | ok sk =>
              rw [hfe] at he
              cases hre : encEnumArms g (base + 1) vs with
              | error er => rw [hre] at he; cases he
              | ok restE =>
                rw [hre] at he
                cases he
                obtain ⟨a, hmem, hidx, hdisc⟩ := ih hre hv
                refine ⟨a, List.mem_cons_of_mem _ hmem, by omega, ?_⟩
                rw [hdisc]
                congr 1
                omega

theorem decEnumArms_exists {g : Attrs} {M : Int} {base : Nat} {vs : List VariantSpec}
    {da : List DecArm} {j : Nat} {v : VariantSpec} {enc : EncodingDerive}
    (hd : decEnumArms g M base vs = .ok da) (hv : vs.get? j = some v)
    (hr : resolveVariant g v = .ok enc) (hs : enc.skip = false) :
    ∃ b ∈ da, b.idx = base + j ∧ b.guard = decGuardTok enc (base + j) v M := by
  induction vs generalizing base da j with
  | nil => simp at hv
  | cons v0 vs ih =>
    simp only [decEnumArms] at hd
    cases hl : tryFrom v0.attrs false true with
    | error er => rw [hl] at hd; cases hd
    | ok u =>
      simp only [hl] at hd
      cases hr0 : resolveVariant g v0 with
      | error er => rw [hr0] at hd; cases hd
      | ok enc0 =>
        simp only [hr0] at hd
        cases j with
        | zero =>
          simp only [List.get?] at hv
          cases hv
          rw [hr0] at hr
          cases hr
          rw [if_neg (by simp [hs])] at hd
          cases hfd : decodeFieldsPlan v.attrs true v.fields with
          | error er => rw [hfd] at hd; cases hd
          | ok fps =>
            rw [hfd] at hd
            cases hrd : decEnumArms g M (base + 1) vs with
            | error er => rw [hrd] at hd; cases hd
            | ok restD =>
              rw [hrd] at hd
              cases hd
              exact ⟨_, List.mem_cons_self _ _, by simp, by simp⟩
        | succ k =>
          simp only [List.get?] at hv
          cases hsk0 : enc0.skip with
          | true =>
            rw [if_pos hsk0] at hd
            obtain ⟨b, hmem, hidx, hg⟩ := ih hd hv
            refine ⟨b, hmem, by omega, ?_⟩
            rw [hg]
            congr 1
            omega
          | false =>
            rw [if_neg (by simp [hsk0])] at hd
            cases hfd : decodeFieldsPlan v0.attrs true v0.fields with
            | error er => rw [hfd] at hd; cases hd
            | ok fps =>
              rw [hfd] at hd
              cases hrd : decEnumArms g M (base + 1) vs with
              | error er => rw [hrd] at hd; cases hd
              | ok restD =>
                rw [hrd] at hd
                cases hd
                obtain ⟨b, hmem, hidx, hg⟩ := ih hrd hv
                refine ⟨b, List.mem_cons_of_mem _ hmem, by omega, ?_⟩
                rw [hg]
                congr 1
                omega

theorem find?_split {α : Type} (p : α → Bool) {l : List α} {a : α}
    (h : l.find? p = some a) :
    ∃ i, l.get? i = some a ∧ p a = true ∧
      ∀ k, k < i → ∀ c, l.get? k = some c → p c = false := by
  induction l with
  | nil => simp at h
  | cons hd tl ih =>
    cases hp : p hd with
    | true =>
      rw [List.find?_cons_of_pos _ hp] at h
      cases h
      exact ⟨0, rfl, hp, by omega⟩
    | false =>
      rw [List.find?_cons_of_neg _ (by simp [hp])] at h
      obtain ⟨i, hget, hpa, hpre⟩ := ih h
      refine ⟨i + 1, hget, hpa, ?_⟩
      intro k hk c hc
      cases k with
      | zero => simp only [List.get?] at hc; cases hc; exact hp
      | succ m => exact hpre m (by omega) c hc

theorem decodeArms_at {C : LeafCodec} {n : String} {x : Nat} {input : List Nat}
    {arms : List DecArm} {i : Nat} {b : DecArm}
    (hb : arms.get? i = some b) (hg : (x : Int) = b.guard)
    (hpre : ∀ k, k < i → ∀ c, arms.get? k = some c → (x : Int) ≠ c.guard) :
    decodeArms C n x input arms =
      match decodeFieldsRun C b.fields input with
      | none => .error .memberError
      | some (xs, r) => .ok (⟨b.idx, xs⟩, r) := by
  induction arms generalizing i with
  | nil => simp at hb
  | cons a rest ih =>
    cases i with
    | zero =>
      simp only [List.get?] at hb
      cases hb
      simp only [decodeArms, if_pos hg]
    | succ k =>
      simp only [List.get?] at hb
      have hne : ¬((x : Int) = a.guard) := hpre 0 (by omega) a rfl
      simp only [decodeArms, if_neg hne]
      exact ih hb (fun m hm c hc => hpre (m + 1) (by omega) c hc)

theorem decodeArms_find (C : LeafCodec) (n : String) (x : Nat) (input : List Nat)
    (arms : List DecArm) :
    decodeArms C n x input arms =
      match arms.find? (fun a => (x : Int) == a.guard) with
      | none => .error (.enumValueNotKnown n x)
      | some a =>
        match decodeFieldsRun C a.fields input with
        | none => .error .memberError
        | some (xs, r) => .ok (⟨a.idx, xs⟩, r) := by
  induction arms with
  | nil => rfl
  | cons a rest ih =>
    by_cases h : (x : Int) = a.guard
    · rw [List.find?_cons_of_pos _ (by simp [h])]
      simp only [decodeArms, if_pos h]
    · rw [List.find?_cons_of_neg _ (by simp [h])]
      simp only [decodeArms, if_neg h]
      exact ih

theorem decodeArms_result {C : LeafCodec} {n : String} {x : Nat} {input : List Nat}
    {arms : List DecArm} {r : EnumVal × List Nat}
    (h : decodeArms C n x input arms = .ok r) : ∃ b ∈ arms, r.1.idx = b.idx := by
  induction arms with
  | nil => simp [decodeArms] at h
  | cons a rest ih =>
    simp only [decodeArms] at h
    by_cases hg : (x : Int) = a.guard
    · rw [if_pos hg] at h
      cases hdf : decodeFieldsRun C a.fields input with
      | none => rw [hdf] at h; cases h
      | some p =>
        obtain ⟨xs, rr⟩ := p
        rw [hdf] at h
        cases h
        exact ⟨a, List.mem_cons_self _ _, rfl⟩
    · rw [if_neg hg] at h
      obtain ⟨b, hmem, hidx⟩ := ih h
      exact ⟨b, List.mem_cons_of_mem _ hmem, hidx⟩

theorem emod_toNat_lt (a : Int) (w : Nat) :
    (a % ((256 : Int) ^ w)).toNat < 256 ^ w := by
  have hM : (0 : Int) < (256 : Int) ^ w := by positivity
  have h1 : 0 ≤ a % ((256 : Int) ^ w) := Int.emod_nonneg a (by omega)
  have h2 : a % ((256 : Int) ^ w) < (256 : Int) ^ w := Int.emod_lt_of_pos a hM
  have hcast : ((256 : Int) ^ w) = ((256 ^ w : Nat) : Int) := by push_cast; ring
  rw [hcast] at h1 h2
  omega

theorem lookup_eq_none_of_hasKey {attrs : Attrs} {k : String}
    (h : hasKey attrs k = false) : List.lookup k attrs = none := by
  induction attrs with
  | nil => rfl
  | cons hd tl ih =>
    obtain ⟨k1, v1⟩ := hd
    have h1 : (k1 == k) = false ∧ tl.any (fun kv => kv.1 == k) = false := by
      simpa [hasKey] using h
    have hne : (k == k1) = false := by
      have := h1.1
      simp only [beq_eq_false_iff_ne] at this ⊢
      exact fun hh => this hh.symm
    have htl : List.lookup k tl = none := ih h1.2
    simp [List.lookup, hne, htl]

/-- Claim C10 (confirmed): for every derive input whose data kind is a
union, both encode_derive and decode_derive return an error and produce
no plan; unions are rejected rather than handled. -/
theorem c10_union_rejected (n : String) (g : Attrs) :
    encodeDerive ⟨n, g, .unionKind⟩ = .error .unionNotSupported ∧
    decodeDerive ⟨n, g, .unionKind⟩ = .error .unionNotSupported :=
  ⟨rfl, rfl⟩

/-- Claim C9 (confirmed): for every struct with zero fields whose encode
and decode derivations succeed, the derived encode emits zero bytes and
reports a byte count of zero, and the derived decode returns the struct
value without consuming any input. -/
theorem c9_zero_field_struct {n : String} {g : Attrs} {ep : EncodeStructPlan}
    {dp : DecodeStructPlan}
    (he : encodeDerive ⟨n, g, .structKind []⟩ = .ok (.structP ep))
    (hd : decodeDerive ⟨n, g, .structKind []⟩ = .ok (.structP dp)) :
    ∀ (C : LeafCodec) (vals input : List Nat),
      encodeStructRun C ep vals = [] ∧ (encodeStructRun C ep vals).length = 0 ∧
      decodeStructRun C dp input = some ([], input) := by
  intro C vals input
  have hsk : ep.skips = [] := by
    cases him : encodeStructImpl [] g with
    | error er => simp [encodeDerive, him, Except.map] at he
    | ok p =>
      simp only [encodeDerive, him, Except.map, Except.ok.injEq,
        EncodePlan.structP.injEq] at he
      subst he
      unfold encodeStructImpl at him
      cases ht : tryFrom g true false with
      | error er => rw [ht] at him; cases him
      | ok encG =>
        simp only [ht, encodeFieldsPlan] at him
        cases him
        rfl
  have hdf : dp.fields = [] := by
    cases hdm : decodeStructImpl [] g with
    | error er => simp [decodeDerive, hdm, Except.map] at hd
    | ok q =>
      simp only [decodeDerive, hdm, Except.map, Except.ok.injEq,
        DecodePlan.structP.injEq] at hd
      subst hd
      unfold decodeStructImpl at hdm
      cases ht : tryFrom g true false with
      | error er => rw [ht] at hdm; cases hdm
      | ok encG =>
        simp only [ht] at hdm
        unfold decodeFieldsPlan at hdm
        cases hp : tryFrom (removeKey "crate" g) false false with
        | error er => rw [hp] at hdm; cases hdm
        | ok pa =>
          simp only [hp, decodeFieldsAux] at hdm
          cases hdm
          rfl
  refine ⟨?_, ?_, ?_⟩
  · simp only [encodeStructRun, hsk]
    cases vals <;> rfl
  · simp only [encodeStructRun, hsk]
    cases vals <;> rfl
  · simp only [decodeStructRun, hdf]
    rfl

/-- Claim C9 witness: the concrete zero-field struct derivation. -/
theorem c9_witness :
    encodeDerive c9wInput = .ok (.structP ⟨"strict_encoding", []⟩) ∧
    (encodeStructRun unaryCodec ⟨"strict_encoding", []⟩ [] = [] ∧
      (encodeStructRun unaryCodec ⟨"strict_encoding", []⟩ []).length = 0 ∧
      decodeStructRun unaryCodec ⟨"strict_encoding", []⟩ [7, 7] = some ([], [7, 7])) :=
  ⟨rfl,
    (@c9_zero_field_struct "Z" [] ⟨"strict_encoding", []⟩ ⟨"strict_encoding", []⟩
      rfl rfl) unaryCodec [] [7, 7]⟩

/-- Claim C8 (code_bug): at the failing input, the resolved codec
namespace mycrate is used for the impl trait paths of both derived
impls, but the member decode calls are emitted against the fixed default
namespace strict_encoding because decode_fields_impl strips the crate
key from the parent scope before re-resolving the member-call namespace
(src/decode.rs line 173). -/
theorem c8_namespace_divergence :
    encodeDerive c8input = .ok (.structP ⟨"mycrate", [false]⟩) ∧
    decodeDerive c8input =
      .ok (.structP ⟨"mycrate", [⟨false, "strict_encoding"⟩]⟩) ∧
    ("strict_encoding" : String) ≠ "mycrate" :=
  ⟨rfl, rfl, by decide⟩

/-- Claim C6 (corrected): when both by_value and by_order are present in
a scope's (merged) attribute set, resolution never succeeds — it never
silently picks one mode — and within an enum scope whose attribute set
passes per-key validation the error is exactly MutuallyExclusiveKeys;
in a non-enum scope the keys are instead rejected as unrecognized. -/
theorem c6_mutually_exclusive :
    (∀ (attrs : Attrs) (ig ie : Bool) (e : EncodingDerive),
      hasKey attrs "by_value" = true → hasKey attrs "by_order" = true →
      tryFrom attrs ig ie ≠ .ok e) ∧
    (∀ (attrs : Attrs) (ig : Bool),
      checkAttrs (reqMap ig true) attrs = .ok () →
      hasKey attrs "by_value" = true → hasKey attrs "by_order" = true →
      tryFrom attrs ig true = .error .mutuallyExclusiveKeys) := by
  constructor
  · intro attrs ig ie e h1 h2
    unfold tryFrom
    cases hc : checkAttrs (reqMap ig ie) attrs with
    | error er => simp
    | ok u => cases u; simp [h1, h2]
  · intro attrs ig hc h1 h2
    unfold tryFrom
    rw [hc]
    simp [h1, h2]

/-- Claim C6 counterexample: a non-enum scope carrying both keys fails,
but with the unrecognized-key error and not MutuallyExclusiveKeys as
the claim demands for every scope. -/
theorem c6_counterexample :
    tryFrom [("by_value", AV.flag), ("by_order", AV.flag)] false false =
      .error (.unrecognizedKey "by_value") ∧
    ConfigError.unrecognizedKey "by_value" ≠ .mutuallyExclusiveKeys :=
  ⟨rfl, by decide⟩

/-- Claim C6 witness: the enum type-global scope with both flags. -/
theorem c6_witness :
    hasKey c6attrs "by_value" = true ∧ hasKey c6attrs "by_order" = true ∧
    checkAttrs (reqMap true true) c6attrs = .ok () ∧
    tryFrom c6attrs true true ≠
      .ok ⟨"strict_encoding", false, false, none, "u8"⟩ ∧
    tryFrom c6attrs true true = .error .mutuallyExclusiveKeys :=
  ⟨rfl, rfl, rfl,
    c6_mutually_exclusive.1 c6attrs true true _ rfl rfl,
    c6_mutually_exclusive.2 c6attrs true rfl rfl rfl⟩

/-- Claim C7 (corrected): discriminantRepr defaults to u8 whenever the
repr key is absent. At the enum type-global scope — the only scope where
repr is a recognized key — every attribute set that passes per-key
validation, does not carry the by_value/by_order conflict (which
preempts repr validation with MutuallyExclusiveKeys), and binds repr to
an identifier outside the four fixed-width unsigned kinds fails with
InvalidReprKind, with no overflow consideration; at every other scope an
attribute set containing a repr key never resolves, the check having
rejected repr as unrecognized. -/
theorem c7_repr_validation :
    (∀ (attrs : Attrs) (ig ie : Bool) (e : EncodingDerive),
      hasKey attrs "repr" = false → tryFrom attrs ig ie = .ok e →
      e.repr = "u8") ∧
    (∀ (attrs : Attrs) (s : String),
      checkAttrs (reqMap true true) attrs = .ok () →
      (hasKey attrs "by_value" && hasKey attrs "by_order") = false →
      List.lookup "repr" attrs = some (AV.ident s) →
      s ≠ "u8" → s ≠ "u16" → s ≠ "u32" → s ≠ "u64" →
      tryFrom attrs true true = .error .invalidReprKind) ∧
    (∀ (attrs : Attrs) (ig ie : Bool) (e : EncodingDerive),
      (ig && ie) = false → hasKey attrs "repr" = true →
      tryFrom attrs ig ie ≠ .ok e) := by
  refine ⟨?_, ?_, ?_⟩
  · intro attrs ig ie e hk h
    have hlu : List.lookup "repr" attrs = none := lookup_eq_none_of_hasKey hk
    unfold tryFrom at h
    cases hc : checkAttrs (reqMap ig ie) attrs with
    | error er => simp only [hc] at h; cases h
    | ok u =>
      cases u
      simp only [hc] at h
      cases hcond : (hasKey attrs "by_value" && hasKey attrs "by_order") with
      | true => rw [if_pos hcond] at h; cases h
      | false =>
        rw [if_neg (by simp [hcond])] at h
        rw [hlu] at h
        simp only [fourReprs] at h
        simp only [show (("u8" == "u8" || "u8" == "u16" || "u8" == "u32" ||
          "u8" == "u64") = true) from rfl, if_true] at h
        cases h
        rfl
  · intro attrs s hch hcond hlu h1 h2 h3 h4
    unfold tryFrom
    simp only [hch]
    rw [if_neg (by simp [hcond])]
    rw [hlu]
    have hfr : fourReprs s = false := by
      simp [fourReprs, h1, h2, h3, h4]
    simp [hfr]
  · intro attrs ig ie e hscope hk h
    have hc := tryFrom_check h
    obtain ⟨kv, hmem, hkv⟩ := List.any_eq_true.mp hk
    have hsome := checkAttrs_keys hc kv hmem
    have hk1 : kv.1 = "repr" := by simpa using hkv
    rw [hk1] at hsome
    cases ig <;> cases ie <;>
      simp [reqMap, List.lookup] at hsome hscope

/-- Claim C7 counterexample: at the struct type-global scope, an invalid
repr identifier fails with the unrecognized-key error rather than the
InvalidReprKind error the claim demands. -/
theorem c7_counterexample :
    tryFrom [("repr", AV.ident "i8")] true false =
      .error (.unrecognizedKey "repr") ∧
    ConfigError.unrecognizedKey "repr" ≠ .invalidReprKind :=
  ⟨rfl, by decide⟩

/-- Claim C7 witness: the u8 default, a general enum-global set with an
extra crate key and an invalid repr failing with InvalidReprKind, and a
repr key at a non-enum scope never resolving. -/
theorem c7_witness :
    hasKey ([("crate", AV.ident "mycrate")] : Attrs) "repr" = false ∧
    (⟨"mycrate", false, true, none, "u8"⟩ : EncodingDerive).repr = "u8" ∧
    tryFrom [("crate", AV.ident "foo"), ("repr", AV.ident "i16")] true true =
      .error .invalidReprKind ∧
    tryFrom [("crate", AV.ident "foo"), ("repr", AV.ident "u8")] true false ≠
      .ok ⟨"foo", false, true, none, "u8"⟩ :=
  ⟨rfl,
    c7_repr_validation.1 [("crate", AV.ident "mycrate")] true false _ rfl rfl,
    c7_repr_validation.2.1 [("crate", AV.ident "foo"), ("repr", AV.ident "i16")]
      "i16" rfl rfl rfl (by decide) (by decide) (by decide) (by decide),
    c7_repr_validation.2.2 [("crate", AV.ident "foo"), ("repr", AV.ident "u8")]
      true false ⟨"foo", false, true, none, "u8"⟩ rfl rfl⟩

theorem encodeEnumImpl_inv {vs : List VariantSpec} {g : Attrs} {p : EncodeEnumPlan}
    (h : encodeEnumImpl vs g = .ok p) :
    ∃ encG arms, tryFrom g true true = .ok encG ∧
      encEnumArms g 0 vs = .ok arms ∧
      p = ⟨encG.useCrate, reprWidth encG.repr, arms⟩ := by
  unfold encodeEnumImpl at h
  cases ht : tryFrom g true true with
  | error er => rw [ht] at h; cases h
  | ok encG =>
    simp only [ht] at h
    cases ha : encEnumArms g 0 vs with
    | error er => rw [ha] at h; cases h
    | ok arms =>
      rw [ha] at h
      cases h
      exact ⟨encG, arms, rfl, rfl, rfl⟩

theorem decodeEnumImpl_inv {n : String} {vs : List VariantSpec} {g : Attrs}
    {p : DecodeEnumPlan} (h : decodeEnumImpl n vs g = .ok p) :
    ∃ encG arms, tryFrom g true true = .ok encG ∧
      decEnumArms g ((256 : Int) ^ reprWidth encG.repr) 0 vs = .ok arms ∧
      p = ⟨encG.useCrate, reprWidth encG.repr, n, arms⟩ := by
  unfold decodeEnumImpl at h
  cases ht : tryFrom g true true with
  | error er => rw [ht] at h; cases h
  | ok encG =>
    simp only [ht] at h
    cases ha : decEnumArms g ((256 : Int) ^ reprWidth encG.repr) 0 vs with
    | error er => rw [ha] at h; cases h
    | ok arms =>
      rw [ha] at h
      cases h
      exact ⟨encG, arms, rfl, ha, rfl⟩

/-- Claim C4 (confirmed): a skip-resolved enum variant contributes no
arm to the derived encode dispatch and no arm to the derived decode
dispatch; it can never be produced by decode nor consumed by encode. -/
theorem c4_skip_variant_excluded {g : Attrs} {n : String} {vs : List VariantSpec}
    {ep : EncodeEnumPlan} {dp : DecodeEnumPlan} {j : Nat} {v : VariantSpec}
    {enc : EncodingDerive}
    (he : encodeEnumImpl vs g = .ok ep) (hd : decodeEnumImpl n vs g = .ok dp)
    (hv : vs.get? j = some v) (hr : resolveVariant g v = .ok enc)
    (hs : enc.skip = true) :
    (∀ a ∈ ep.arms, a.idx ≠ j) ∧ (∀ b ∈ dp.arms, b.idx ≠ j) ∧
    (∀ (C : LeafCodec) (ev : EnumVal), ev.idx = j → encodeEnumRun C ep ev = none) ∧
    (∀ (C : LeafCodec) (input : List Nat) (r : EnumVal × List Nat),
      decodeEnumRun C dp input = .ok r → r.1.idx ≠ j) := by
  obtain ⟨encG, ea, ht, hae, hep⟩ := encodeEnumImpl_inv he
  obtain ⟨encG2, da, ht2, had, hdp⟩ := decodeEnumImpl_inv hd
  subst hep
  subst hdp
  dsimp only
  have hEnc : ∀ a ∈ ea, a.idx ≠ j := by
    intro a ha hcontra
    obtain ⟨j2, v2, enc2, hv2, hidx, hres, hskf, _⟩ := encEnumArms_mem hae a ha
    have hj2 : j2 = j := by omega
    subst hj2
    rw [hv] at hv2
    cases hv2
    rw [hr] at hres
    cases hres
    rw [hs] at hskf
    cases hskf
  have hDec : ∀ b ∈ da, b.idx ≠ j := by
    intro b hb hcontra
    obtain ⟨j2, v2, enc2, hv2, hidx, hres, hskf, _⟩ := decEnumArms_mem had b hb
    have hj2 : j2 = j := by omega
    subst hj2
    rw [hv] at hv2
    cases hv2
    rw [hr] at hres
    cases hres
    rw [hs] at hskf
    cases hskf
  refine ⟨hEnc, hDec, ?_, ?_⟩
  · intro C ev hev
    have hfind : ea.find? (fun a => a.idx == ev.idx) = none :=
      List.find?_eq_none.mpr (fun a ha => by simpa [hev] using hEnc a ha)
    unfold encodeEnumRun
    dsimp only
    rw [hfind]
  · intro C input r hdec
    unfold decodeEnumRun at hdec
    dsimp only at hdec
    cases hre : readLE (reprWidth encG2.repr) input with
    | none => rw [hre] at hdec; cases hdec
    | some xr =>
      obtain ⟨x, rest⟩ := xr
      simp only [hre] at hdec
      obtain ⟨b, hb, hidx⟩ := decodeArms_result hdec
      rw [hidx]
      exact hDec b hb

/-- Claim C4 witness: the concrete enum whose first variant is
skip-marked. -/
theorem c4_witness :
    (∀ a ∈ ([⟨1, 1, []⟩] : List EncArm), a.idx ≠ 0) ∧
    encodeEnumRun unaryCodec ⟨"strict_encoding", 1, [⟨1, 1, []⟩]⟩ ⟨0, []⟩ = none :=
  have h := @c4_skip_variant_excluded [] "E" c4wVariants
    ⟨"strict_encoding", 1, [⟨1, 1, []⟩]⟩ ⟨"strict_encoding", 1, "E", [⟨1, 1, []⟩]⟩
    0 ⟨"A", 0, [("skip", AV.flag)], []⟩ ⟨"strict_encoding", true, true, none, "u8"⟩
    rfl rfl rfl rfl rfl
  ⟨h.1, h.2.2.1 unaryCodec ⟨0, []⟩ rfl⟩

/-- Claim C3 (confirmed): a derived enum decode reads exactly one
repr-width integer, dispatches to the first arm (declaration order)
whose guard equals it and reconstructs that variant's fields in order;
when no guard matches it fails with the named unknown-variant error
carrying the type name and the raw value, returning no value at all. -/
theorem c3_enum_decode_dispatch {n : String} {g : Attrs} {vs : List VariantSpec}
    {p : DecodeEnumPlan}
    (hd : decodeDerive ⟨n, g, .enumKind vs⟩ = .ok (.enumP p)) :
    p.typeName = n ∧
    ∀ (C : LeafCodec) (input : List Nat),
      decodeEnumRun C p input =
        match readLE p.w input with
        | none => .error .memberError
        | some (x, rest) =>
          match p.arms.find? (fun a => (x : Int) == a.guard) with
          | none => .error (.enumValueNotKnown p.typeName x)
          | some a =>
            match decodeFieldsRun C a.fields rest with
            | none => .error .memberError
            | some (xs, r) => .ok (⟨a.idx, xs⟩, r) := by
  have him : decodeEnumImpl n vs g = .ok p := by
    cases him0 : decodeEnumImpl n vs g with
    | error er => simp [decodeDerive, him0, Except.map] at hd
    | ok q =>
      simp only [decodeDerive, him0, Except.map, Except.ok.injEq,
        DecodePlan.enumP.injEq] at hd
      rw [← hd]
  obtain ⟨encG, arms, ht, had, hp⟩ := decodeEnumImpl_inv him
  subst hp
  refine ⟨rfl, ?_⟩
  intro C input
  unfold decodeEnumRun
  dsimp only
  cases hre : readLE (reprWidth encG.repr) input with
  | none => rfl
  | some xr =>
    obtain ⟨x, rest⟩ := xr
    exact decodeArms_find C n x rest arms

/-- Claim C3 witness: decoding an unmatched discriminant on the
concrete one-variant enum yields the named error. -/
theorem c3_witness :
    (⟨"strict_encoding", 1, "T", [⟨0, 0, []⟩]⟩ : DecodeEnumPlan).typeName = "T" ∧
    decodeEnumRun unaryCodec ⟨"strict_encoding", 1, "T", [⟨0, 0, []⟩]⟩ [9] =
      .error (.enumValueNotKnown "T" 9) :=
  have h := @c3_enum_decode_dispatch "T" [] [⟨"A", 0, [], []⟩]
    ⟨"strict_encoding", 1, "T", [⟨0, 0, []⟩]⟩ rfl
  ⟨h.1, (h.2 unaryCodec [9]).trans (by rfl)⟩

/-- Claim C5 (confirmed): a skip-resolved field contributes nothing to
the encoded bytes — encoding equals encoding with the field and its
value removed — and decode populates it with the member default while
consuming zero input bytes, regardless of the stream's contents. -/
theorem c5_skip_field {parent : Attrs} {ie : Bool} {fields : List FieldSpec}
    {sk : List Bool} {imp : String} {dfs : List DecFieldP} {j : Nat}
    {fj : FieldSpec} {enc : EncodingDerive}
    (he : encodeFieldsPlan parent ie fields = .ok sk)
    (hd : decodeFieldsPlan parent ie fields = .ok (imp, dfs))
    (hj : fields.get? j = some fj)
    (hr : resolveField parent fj ie = .ok enc) (hs : enc.skip = true) :
    ∀ (C : LeafCodec) (vals input : List Nat),
      encodeFieldsRun C sk vals =
        encodeFieldsRun C (sk.eraseIdx j) (vals.eraseIdx j) ∧
      decodeFieldsRun C dfs input =
        (decodeFieldsRun C (dfs.eraseIdx j) input).map
          (fun p => (p.1.insertIdx j C.dflt, p.2)) := by
  intro C vals input
  obtain ⟨hlen, hget⟩ := encodeFieldsPlan_get he
  obtain ⟨e, hre, hgetj⟩ := hget j fj hj
  rw [hr] at hre
  cases hre
  rw [hs] at hgetj
  have hmap := decodeFieldsPlan_skips he hd
  have hdj : (dfs.map DecFieldP.skip).get? j = some true := by
    rw [hmap]; exact hgetj
  rw [List.get?_map] at hdj
  obtain ⟨f, hf, hfs⟩ := Option.map_eq_some'.mp hdj
  exact ⟨encodeFieldsRun_eraseIdx sk vals j hgetj,
    decodeFieldsRun_skip_eraseIdx dfs j f hf hfs input⟩

/-- Claim C5 witness: the concrete skip-marked field. -/
theorem c5_witness :
    resolveField [] ⟨none, [("skip", AV.flag)]⟩ false =
      .ok ⟨"strict_encoding", true, true, none, "u8"⟩ ∧
    (encodeFieldsRun unaryCodec [true, false] [5, 2] =
        encodeFieldsRun unaryCodec ([true, false].eraseIdx 0) ([5, 2].eraseIdx 0) ∧
      decodeFieldsRun unaryCodec
          [⟨true, "strict_encoding"⟩, ⟨false, "strict_encoding"⟩] [1, 1, 0] =
        (decodeFieldsRun unaryCodec
            ([⟨true, "strict_encoding"⟩, ⟨false, "strict_encoding"⟩].eraseIdx 0)
            [1, 1, 0]).map
          (fun p => (p.1.insertIdx 0 unaryCodec.dflt, p.2))) :=
  ⟨rfl,
    (@c5_skip_field [] false c5wFields [true, false] "strict_encoding"
      [⟨true, "strict_encoding"⟩, ⟨false, "strict_encoding"⟩] 0
      ⟨none, [("skip", AV.flag)]⟩ ⟨"strict_encoding", true, true, none, "u8"⟩
      rfl rfl rfl rfl rfl) unaryCodec [5, 2] [1, 1, 0]⟩

/-- Claim C2 (corrected/amended): for every non-skipped enum variant
whose claim-assigned discriminant — the explicit value's integer if
present, else the declaration index under by-order, else the intrinsic
ordinal cast to the repr — fits within discriminantRepr, the encode arm
writes exactly that integer and the decode arm's guard equals it; the
in-range condition is needed because encode reduces the written
discriminant modulo the repr width while decode compares the explicit
value or index unreduced. -/
theorem c2_discriminant_assignment {g : Attrs} {n : String} {vs : List VariantSpec}
    {ep : EncodeEnumPlan} {dp : DecodeEnumPlan} {j : Nat} {v : VariantSpec}
    {enc : EncodingDerive}
    (he : encodeEnumImpl vs g = .ok ep) (hd : decodeEnumImpl n vs g = .ok dp)
    (hv : vs.get? j = some v) (hr : resolveVariant g v = .ok enc)
    (hs : enc.skip = false)
    (hin : 0 ≤ claimedDisc enc j v ((256 : Int) ^ ep.w) ∧
      claimedDisc enc j v ((256 : Int) ^ ep.w) < (256 : Int) ^ ep.w) :
    ∃ a ∈ ep.arms, ∃ b ∈ dp.arms, a.idx = j ∧ b.idx = j ∧
      a.discTok % ((256 : Int) ^ ep.w) = claimedDisc enc j v ((256 : Int) ^ ep.w) ∧
      b.guard = claimedDisc enc j v ((256 : Int) ^ ep.w) := by
  obtain ⟨encG, ea, ht, hae, hep⟩ := encodeEnumImpl_inv he
  obtain ⟨encG2, da, ht2, had, hdp⟩ := decodeEnumImpl_inv hd
  rw [ht] at ht2
  cases ht2
  subst hep
  subst hdp
  dsimp only at hin ⊢
  obtain ⟨a, hamem, haidx, hadisc⟩ := encEnumArms_exists hae hv hr hs
  obtain ⟨b, hbmem, hbidx, hbg⟩ := decEnumArms_exists had hv hr hs
  rw [Nat.zero_add] at haidx hbidx hadisc hbg
  refine ⟨a, hamem, b, hbmem, haidx, hbidx, ?_, ?_⟩
  · rw [hadisc]
    unfold claimedDisc at hin ⊢
    unfold encDiscTok
    cases hval : enc.value with
    | some val =>
      simp only [hval] at hin ⊢
      exact Int.emod_eq_of_lt hin.1 hin.2
    | none =>
      cases hbo : enc.byOrder with
      | true =>
        simp only [hval, hbo, if_true] at hin ⊢
        exact Int.emod_eq_of_lt hin.1 hin.2
      | false =>
        simp only [Bool.false_eq_true, if_false]
  · rw [hbg]
    unfold decGuardTok claimedDisc
    rfl

/-- Claim C2 counterexample: a single variant carrying `value = 256`
under the default one-byte repr: the decode guard is the explicit 256
but the encode side writes `256 as u8`, i.e. the byte 0, so the
discriminant used by encode is not the explicit value and the encoded
stream does not even decode back to the variant. -/
theorem c2_counterexample :
    encodeEnumImpl c2cexVariants [] = .ok ⟨"strict_encoding", 1, [⟨0, 256, []⟩]⟩ ∧
    decodeEnumImpl "E" c2cexVariants [] =
      .ok ⟨"strict_encoding", 1, "E", [⟨0, 256, []⟩]⟩ ∧
    encodeEnumRun unaryCodec ⟨"strict_encoding", 1, [⟨0, 256, []⟩]⟩ ⟨0, []⟩ =
      some [0] ∧
    decodeEnumRun unaryCodec ⟨"strict_encoding", 1, "E", [⟨0, 256, []⟩]⟩ [0] =
      .error (.enumValueNotKnown "E" 0) ∧
    (((256 : Int) % (256 : Int) ^ 1).toNat : Int) = 0 ∧ (0 : Int) ≠ 256 :=
  ⟨rfl, rfl, rfl, rfl, by decide, by decide⟩

/-- Claim C2 witness: an in-range explicit value (5) is both written by
encode and matched by decode. -/
theorem c2_witness :
    (0 ≤ claimedDisc ⟨"strict_encoding", false, true, some 5, "u8"⟩ 0
        ⟨"A", 0, [("value", AV.int 5)], []⟩
        ((256 : Int) ^ (⟨"strict_encoding", 1, [⟨0, 5, []⟩]⟩ : EncodeEnumPlan).w) ∧
      claimedDisc ⟨"strict_encoding", false, true, some 5, "u8"⟩ 0
        ⟨"A", 0, [("value", AV.int 5)], []⟩
        ((256 : Int) ^ (⟨"strict_encoding", 1, [⟨0, 5, []⟩]⟩ : EncodeEnumPlan).w) <
        (256 : Int) ^ (⟨"strict_encoding", 1, [⟨0, 5, []⟩]⟩ : EncodeEnumPlan).w) ∧
    (∃ a ∈ (⟨"strict_encoding", 1, [⟨0, 5, []⟩]⟩ : EncodeEnumPlan).arms,
      ∃ b ∈ (⟨"strict_encoding", 1, "E", [⟨0, 5, []⟩]⟩ : DecodeEnumPlan).arms,
        a.idx = 0 ∧ b.idx = 0 ∧
        a.discTok %
            ((256 : Int) ^ (⟨"strict_encoding", 1, [⟨0, 5, []⟩]⟩ : EncodeEnumPlan).w) =
          claimedDisc ⟨"strict_encoding", false, true, some 5, "u8"⟩ 0
            ⟨"A", 0, [("value", AV.int 5)], []⟩
            ((256 : Int) ^ (⟨"strict_encoding", 1, [⟨0, 5, []⟩]⟩ : EncodeEnumPlan).w) ∧
        b.guard =
          claimedDisc ⟨"strict_encoding", false, true, some 5, "u8"⟩ 0
            ⟨"A", 0, [("value", AV.int 5)], []⟩
            ((256 : Int) ^ (⟨"strict_encoding", 1, [⟨0, 5, []⟩]⟩ : EncodeEnumPlan).w)) :=
  ⟨by decide,
    @c2_discriminant_assignment [] "E" c2wVariants
      ⟨"strict_encoding", 1, [⟨0, 5, []⟩]⟩ ⟨"strict_encoding", 1, "E", [⟨0, 5, []⟩]⟩
      0 ⟨"A", 0, [("value", AV.int 5)], []⟩
      ⟨"strict_encoding", false, true, some 5, "u8"⟩
      rfl rfl rfl rfl rfl (by decide)⟩

/-- Claim C1 (corrected/amended): decode(encode(v)) = v holds for every
accepted TypeSpec and constructible value v provided v is well-formed
for the plan — its skip-resolved members hold the member default and,
for an enum, its variant has an encode arm (is not skip-dropped) — and
the written discriminant of v's variant is matched by exactly that
variant's decode guard (discriminants collision-free and within the
repr, which resolution does not itself validate). -/
theorem c1_round_trip {C : LeafCodec} {inp : DeriveInput} {ep : EncodePlan}
    {dp : DecodePlan} {v : Value} {bytes : List Nat}
    (he : encodeDerive inp = .ok ep) (hd : decodeDerive inp = .ok dp)
    (hwf : valueWF C ep v = true) (hdisc : discOK ep dp v = true)
    (henc : encodeRun C ep v = some bytes) (rest : List Nat) :
    decodeRun C dp (bytes ++ rest) = .ok (v, rest) := by
  obtain ⟨n, g, data⟩ := inp
  cases data with
  | unionKind => simp [encodeDerive] at he
  | structKind fs =>
    have hepX : ∃ p, encodeStructImpl fs g = .ok p ∧ ep = .structP p := by
      cases him : encodeStructImpl fs g with
      | error er => simp [encodeDerive, him, Except.map] at he
      | ok p =>
        simp only [encodeDerive, him, Except.map, Except.ok.injEq] at he
        exact ⟨p, rfl, he.symm⟩
    obtain ⟨p, him, hepP⟩ := hepX
    subst hepP
    have hdqX : ∃ q, decodeStructImpl fs g = .ok q ∧ dp = .structP q := by
      cases hdm : decodeStructImpl fs g with
      | error er => simp [decodeDerive, hdm, Except.map] at hd
      | ok q =>
        simp only [decodeDerive, hdm, Except.map, Except.ok.injEq] at hd
        exact ⟨q, rfl, hd.symm⟩
    obtain ⟨q, hdm, hdpP⟩ := hdqX
    subst hdpP
    cases v with
    | enumV ev => simp [valueWF] at hwf
    | structV vals =>
      unfold encodeStructImpl at him
      cases ht : tryFrom g true false with
      | error er => rw [ht] at him; cases him
      | ok encG =>
        simp only [ht] at him
        cases hfe : encodeFieldsPlan g false fs with
        | error er => rw [hfe] at him; cases him
        | ok sk =>
          rw [hfe] at him
          cases him
          unfold decodeStructImpl at hdm
          simp only [ht] at hdm
          cases hfd : decodeFieldsPlan g false fs with
          | error er => rw [hfd] at hdm; cases hdm
          | ok ifps =>
            rw [hfd] at hdm
            cases hdm
            obtain ⟨imp, dfs⟩ := ifps
            have hmap : dfs.map DecFieldP.skip = sk :=
              decodeFieldsPlan_skips hfe hfd
            have hwf2 : skipDfltB C sk vals = true := by
              simpa [valueWF] using hwf
            have hbytes : bytes = encodeFieldsRun C sk vals := by
              simpa [encodeRun, encodeStructRun] using henc.symm
            subst hbytes
            simp only [decodeRun, decodeStructRun]
            rw [decodeFieldsRun_encodeFieldsRun hmap hwf2 rest]
  | enumKind vs =>
    have hepX : ∃ p, encodeEnumImpl vs g = .ok p ∧ ep = .enumP p := by
      cases him : encodeEnumImpl vs g with
      | error er => simp [encodeDerive, him, Except.map] at he
      | ok p =>
        simp only [encodeDerive, him, Except.map, Except.ok.injEq] at he
        exact ⟨p, rfl, he.symm⟩
    obtain ⟨pe, him, hepP⟩ := hepX
    subst hepP
    have hdqX : ∃ q, decodeEnumImpl n vs g = .ok q ∧ dp = .enumP q := by
      cases hdm : decodeEnumImpl n vs g with
      | error er => simp [decodeDerive, hdm, Except.map] at hd
      | ok q =>
        simp only [decodeDerive, hdm, Except.map, Except.ok.injEq] at hd
        exact ⟨q, rfl, hd.symm⟩
    obtain ⟨qe, hdm, hdpP⟩ := hdqX
    subst hdpP
    cases v with
    | structV vals => simp [valueWF] at hwf
    | enumV ev =>
      obtain ⟨evi, evf⟩ := ev
      obtain ⟨encG, ea, ht, hae, hpe⟩ := encodeEnumImpl_inv him
      obtain ⟨encG2, da, ht2, had, hqe⟩ := decodeEnumImpl_inv hdm
      rw [ht] at ht2
      cases ht2
      subst hpe
      subst hqe
      simp only [valueWF] at hwf
      simp only [discOK] at hdisc
      simp only [encodeRun, encodeEnumRun] at henc
      cases hfind : ea.find? (fun a => a.idx == evi) with
      | none => simp [hfind] at hwf
      | some a =>
        simp only [hfind] at hwf hdisc henc
        have hbytes : bytes =
            toLEBytes (reprWidth encG.repr)
                ((a.discTok % ((256 : Int) ^ reprWidth encG.repr)).toNat) ++
              encodeFieldsRun C a.skips evf := by
          simpa using henc.symm
        subst hbytes
        obtain ⟨i, hgi, hpa, hpre⟩ := find?_split _ hfind
        obtain ⟨hlen, hpair⟩ := encDecArms_pair hae had
        have hi : i < ea.length := by
          by_contra hni
          push_neg at hni
          rw [List.get?_eq_none.mpr hni] at hgi
          cases hgi
        have hbX : ∃ b, da.get? i = some b := by
          cases hb : da.get? i with
          | none =>
            rw [List.get?_eq_none] at hb
            omega
          | some b => exact ⟨b, rfl⟩
        obtain ⟨b, hb⟩ := hbX
        obtain ⟨hbidx, hbskips⟩ := hpair i a b hgi hb
        have haidx : a.idx = evi := by simpa using hpa
        have hbev : b.idx = evi := by
          rw [← hbidx]
          exact haidx
        have hbmem : b ∈ da := List.get?_mem hb
        have hball := List.all_eq_true.mp hdisc
        have hbguard :
            (((a.discTok % ((256 : Int) ^ reprWidth encG.repr)).toNat : Nat) : Int) =
              b.guard := by
          have hx := hball b hbmem
          have hbi : (b.idx == evi) = true := by simp [hbev]
          rw [hbi] at hx
          have hx2 : (b.guard ==
              (((a.discTok % ((256 : Int) ^ reprWidth encG.repr)).toNat : Nat) : Int)) =
              true := by simpa using hx
          exact (eq_of_beq hx2).symm
        have hprearms : ∀ k, k < i → ∀ c, da.get? k = some c →
            (((a.discTok % ((256 : Int) ^ reprWidth encG.repr)).toNat : Nat) : Int) ≠
              c.guard := by
          intro k hk c hc
          have hkl : k < ea.length := by omega
          have hc2X : ∃ c2, ea.get? k = some c2 := by
            cases hc2 : ea.get? k with
            | none =>
              rw [List.get?_eq_none] at hc2
              omega
            | some c2 => exact ⟨c2, rfl⟩
          obtain ⟨c2, hc2⟩ := hc2X
          have hpc2 := hpre k hk c2 hc2
          obtain ⟨hcidx, _⟩ := hpair k c2 c hc2 hc
          have hcne : (c.idx == evi) = false := by
            rw [← hcidx]
            exact hpc2
          have hxc := hball c (List.get?_mem hc)
          rw [hcne] at hxc
          have hxc2 : (c.guard ==
              (((a.discTok % ((256 : Int) ^ reprWidth encG.repr)).toNat : Nat) : Int)) =
              false := by simpa using hxc
          intro hcontra
          rw [← hcontra] at hxc2
          simp at hxc2
        have hxlt :
            (a.discTok % ((256 : Int) ^ reprWidth encG.repr)).toNat <
              256 ^ reprWidth encG.repr := emod_toNat_lt _ _
        have hrun : decodeEnumRun C
            ⟨encG.useCrate, reprWidth encG.repr, n, da⟩
            ((toLEBytes (reprWidth encG.repr)
                ((a.discTok % ((256 : Int) ^ reprWidth encG.repr)).toNat) ++
              encodeFieldsRun C a.skips evf) ++ rest) =
            .ok (⟨evi, evf⟩, rest) := by
          unfold decodeEnumRun
          dsimp only
          rw [List.append_assoc, readLE_toLEBytes, Nat.mod_eq_of_lt hxlt]
          show decodeArms C n
              ((a.discTok % ((256 : Int) ^ reprWidth encG.repr)).toNat)
              (encodeFieldsRun C a.skips evf ++ rest) da =
            .ok (⟨evi, evf⟩, rest)
          rw [decodeArms_at hb hbguard hprearms]
          rw [decodeFieldsRun_encodeFieldsRun hbskips.symm hwf rest]
          simp [hbev]
        simp only [decodeRun]
        rw [hrun]

/-- Claim C1 counterexample: a struct whose single skip-marked field
holds the value 5 (not the member default 0) encodes to zero bytes and
decodes back to the default — decode(encode(v)) differs from v on an
accepted TypeSpec and a constructible value, so the claim as stated is
false. -/
theorem c1_counterexample :
    encodeDerive c1cexInput = .ok (.structP ⟨"strict_encoding", [true]⟩) ∧
    decodeDerive c1cexInput =
      .ok (.structP ⟨"strict_encoding", [⟨true, "strict_encoding"⟩]⟩) ∧
    encodeRun unaryCodec (.structP ⟨"strict_encoding", [true]⟩) (.structV [5]) =
      some [] ∧
    decodeRun unaryCodec (.structP ⟨"strict_encoding", [⟨true, "strict_encoding"⟩]⟩)
      ([] ++ []) = .ok (.structV [0], []) ∧
    Value.structV [0] ≠ .structV [5] :=
  ⟨rfl, rfl, rfl, rfl, by decide⟩

/-- Claim C1 witness: a two-variant enum (one field-carrying by-order
variant, one explicit-value variant) round-trips a well-formed value of
the first variant with trailing input preserved. -/
theorem c1_witness :
    valueWF unaryCodec
      (.enumP ⟨"strict_encoding", 1, [⟨0, 0, [false]⟩, ⟨1, 7, []⟩]⟩)
      (.enumV ⟨0, [2]⟩) = true ∧
    discOK (.enumP ⟨"strict_encoding", 1, [⟨0, 0, [false]⟩, ⟨1, 7, []⟩]⟩)
      (.enumP ⟨"strict_encoding", 1, "W",
        [⟨0, 0, [⟨false, "strict_encoding"⟩]⟩, ⟨1, 7, []⟩]⟩)
      (.enumV ⟨0, [2]⟩) = true ∧
    decodeRun unaryCodec
      (.enumP ⟨"strict_encoding", 1, "W",
        [⟨0, 0, [⟨false, "strict_encoding"⟩]⟩, ⟨1, 7, []⟩]⟩)
      ([0, 1, 1, 0] ++ [9]) = .ok (.enumV ⟨0, [2]⟩, [9]) :=
  ⟨by decide, by decide,
    @c1_round_trip unaryCodec c1wInput
      (.enumP ⟨"strict_encoding", 1, [⟨0, 0, [false]⟩, ⟨1, 7, []⟩]⟩)
      (.enumP ⟨"strict_encoding", 1, "W",
        [⟨0, 0, [⟨false, "strict_encoding"⟩]⟩, ⟨1, 7, []⟩]⟩)
      (.enumV ⟨0, [2]⟩) [0, 1, 1, 0] rfl rfl (by decide) (by decide) rfl [9]⟩

end StrictEnc
